import Mathlib

/-!
Verification development for the PillowMate action-recognition tooling
(`ActionRecognitionModule`).  Python floats are modelled as exact rationals
(`ℚ`), numpy arrays as `List (List ℚ)` (row = frame), and every random draw
made by the scripts is threaded through explicitly as a parameter, so that a
function applied to the same draws computes the same result as the script.
`softmax` and the probability outputs of the inference CLI live in `ℝ`
because they involve the exponential function.
-/

set_option linter.unusedSectionVars false
set_option linter.unusedVariables false

/-- Python `round` (banker's rounding, half to even) on an exact rational,
as performed by `int(round(x))` in the augmentation scripts. -/
def pyRound (q : ℚ) : ℤ :=
  let f := ⌊q⌋
  let r := q - f
  if r < 1/2 then f
  else if 1/2 < r then f + 1
  else if f % 2 = 0 then f else f + 1

namespace AugmentFixed

/-!
Shallow embedding of `ActionRecognitionModule/python/augment_sequences.py`
(the fixed-window augmentation CLI).  The `random.Random` draws made inside
each operation (`rng.uniform`, `rng.randint`) and the `np.random` noise
array are passed in as explicit arguments.
-/

/-- Embeds `random_crop` (augment_sequences.py:106-114).  `ratio` is the
value drawn by `rng.uniform(min_ratio, max_ratio)` and `start` the value
drawn by `rng.randint(0, len - crop_len)`. -/
def random_crop (sequence : List (List ℚ)) (ratio : ℚ) (start : ℕ) :
    List (List ℚ) :=
  if sequence.length < 2 then sequence
  else
    let crop_len := (max 2 ⌈(sequence.length : ℚ) * ratio⌉).toNat
    if sequence.length ≤ crop_len then sequence
    else (sequence.drop start).take crop_len

/-- One point of `np.linspace (0, len-1, num := new_len)`:
`i * (len-1) / (new_len-1)`, for `new_len ≥ 2` as produced by `time_scale`. -/
def linTarget (len newLen i : ℕ) : ℚ :=
  (i : ℚ) * ((len : ℚ) - 1) / ((newLen : ℚ) - 1)

/-- Embeds `np.interp x (np.arange n) col`: linear interpolation on the
uniform grid `0, 1, …, n-1`, clamped at the ends, exactly as numpy clamps
query points outside the grid. -/
def interpAt (col : List ℚ) (x : ℚ) : ℚ :=
  if x ≤ 0 then col.getD 0 0
  else if ((col.length : ℚ) - 1) ≤ x then col.getD (col.length - 1) 0
  else
    let j := (⌊x⌋).toNat
    col.getD j 0 + (x - (j : ℚ)) * (col.getD (j + 1) 0 - col.getD j 0)

/-- Column `j` of a row-major matrix, i.e. `sequence[:, j]`. -/
def column (sequence : List (List ℚ)) (j : ℕ) : List ℚ :=
  sequence.map (fun r => r.getD j 0)

/-- Embeds `time_scale` (augment_sequences.py:117-127).  `scale` is the value
drawn by `rng.uniform(min_scale, max_scale)`; every feature column is
resampled by linear interpolation over `np.linspace (0, len-1, new_len)`. -/
def time_scale (sequence : List (List ℚ)) (scale : ℚ) : List (List ℚ) :=
  if sequence.length < 2 then sequence
  else
    let n := sequence.length
    let w := (sequence.headD []).length
    let newLen := (max 2 (pyRound ((n : ℚ) * scale))).toNat
    (List.range newLen).map fun i =>
      (List.range w).map fun j => interpAt (column sequence j) (linTarget n newLen i)

/-- Embeds `add_noise` (augment_sequences.py:130-132).  `noise` is the array
drawn by `np.random.normal(0.0, noise_std, size=sequence.shape)`; the result
is the elementwise sum `sequence + noise`. -/
def add_noise (sequence : List (List ℚ)) (noise : List (List ℚ)) : List (List ℚ) :=
  List.zipWith (fun r nr => List.zipWith (· + ·) r nr) sequence noise

/-- Embeds `np.roll sequence shift (axis := 0)`: output row `i` is input row
`(i - shift) mod n`, realised as `List.rotate` by `(-shift) mod n`. -/
def npRoll {α : Type} (l : List α) (shift : ℤ) : List α :=
  l.rotate (((-shift) % (l.length : ℤ)).toNat)

/-- Embeds `time_shift` (augment_sequences.py:135-142).  `shift` is the value
drawn by `rng.randint(-max_shift, max_shift)`. -/
def time_shift {α : Type} (sequence : List α) (maxRatio : ℚ) (shift : ℤ) :
    List α :=
  if sequence.length < 2 ∨ maxRatio ≤ 0 then sequence
  else if shift = 0 then sequence
  else npRoll sequence shift

end AugmentFixed

namespace AugmentFixed

/-- Embeds the `FEATURE_COLUMN_GROUPS` table (augment_sequences.py:152-156);
unknown names resolve to `[]` exactly like `dict.get(target, [])`. -/
def FEATURE_COLUMN_GROUPS : String → List ℕ
  | "pressure" => [0]
  | "accelerometer" => [1, 2, 3]
  | "gyroscope" => [4, 5, 6]
  | _ => []

/-- Embeds the column-selection step of `time_mask`
(augment_sequences.py:165-171): all columns when `"all"` is requested,
otherwise `sorted(set(...))` of the union of the named groups, realised as a
filter over `0..6` since every group is a subset of `0..6`. -/
def maskColumns (targets : List String) (width : ℕ) : List ℕ :=
  if "all" ∈ targets then List.range width
  else (List.range 7).filter fun j =>
    targets.any fun t => j ∈ FEATURE_COLUMN_GROUPS t

/-- Embeds the `if not columns: columns = FEATURE_COLUMN_GROUPS["pressure"]`
default (augment_sequences.py:172-173). -/
def resolvedColumns (targets : List String) (width : ℕ) : List ℕ :=
  let c := maskColumns targets width
  if c = [] then [0] else c

/-- Number of masking repetitions actually performed:
`for _ in range(max(1, chunks))` (augment_sequences.py:174). -/
def maskReps (chunks : ℤ) : ℕ := (max 1 chunks).toNat

/-- Embeds `total_frames = max(1, int(len * min(ratio, 1.0)))`
(augment_sequences.py:162); `int` truncates, which is `floor` here because
the product is nonnegative on the non-no-op path. -/
def maskTotalFrames (len : ℕ) (ratio : ℚ) : ℕ :=
  max 1 (⌊(len : ℚ) * min ratio 1⌋).toNat

/-- Embeds `chunk_len = max(1, total_frames // max(1, chunks))`
(augment_sequences.py:163). -/
def maskChunkLen (len : ℕ) (ratio : ℚ) (chunks : ℤ) : ℕ :=
  max 1 (maskTotalFrames len ratio / maskReps chunks)

/-- Zero the entries of a row whose (absolute) column index lies in `cols`;
`j` is the index of the first entry of the remaining row. -/
def zeroColsFrom (cols : List ℕ) : ℕ → List ℚ → List ℚ
  | _, [] => []
  | j, v :: vs => (if j ∈ cols then 0 else v) :: zeroColsFrom cols (j + 1) vs

/-- Apply `masked[start:start+chunkLen, cols] = 0.0` to the rows of `m`,
where `i` is the index of the first row of `m`. -/
def maskRowsFrom (cols : List ℕ) (start chunkLen : ℕ) : ℕ → List (List ℚ) → List (List ℚ)
  | _, [] => []
  | i, r :: rs =>
    (if start ≤ i ∧ i < start + chunkLen then zeroColsFrom cols 0 r else r)
      :: maskRowsFrom cols start chunkLen (i + 1) rs

/-- Embeds `time_mask` (augment_sequences.py:159-177).  `starts k` is the
value drawn by `rng.randint(0, max(0, len - chunk_len))` on the `k`-th
repetition of the masking loop. -/
def time_mask (sequence : List (List ℚ)) (ratio : ℚ) (chunks : ℤ)
    (targets : List String) (starts : ℕ → ℕ) : List (List ℚ) :=
  if ratio ≤ 0 ∨ sequence.length < 2 then sequence
  else
    let chunk_len := maskChunkLen sequence.length ratio chunks
    let cols := resolvedColumns targets (sequence.headD []).length
    (List.range (maskReps chunks)).foldl
      (fun m k => maskRowsFrom cols (starts k) chunk_len 0 m) sequence

end AugmentFixed

namespace AugmentSeqPipe

/-!
Shallow embedding of
`ActionRecognitionModule/sequence_pipeline/python/augment_sequences.py`
(the variable-length sequence augmentation CLI).  Its `random_crop`,
`time_scale` and `add_noise` bodies are transcribed from that file; the
numpy helpers (`np.interp`, `np.linspace`, column access) are the same
library routines in both scripts and therefore share one embedding.
-/

/-- Embeds `random_crop` (sequence_pipeline augment_sequences.py:64-72). -/
def random_crop (sequence : List (List ℚ)) (ratio : ℚ) (start : ℕ) :
    List (List ℚ) :=
  if sequence.length < 2 then sequence
  else
    let crop_len := (max 2 ⌈(sequence.length : ℚ) * ratio⌉).toNat
    if sequence.length ≤ crop_len then sequence
    else (sequence.drop start).take crop_len

/-- Embeds `time_scale` (sequence_pipeline augment_sequences.py:75-85). -/
def time_scale (sequence : List (List ℚ)) (scale : ℚ) : List (List ℚ) :=
  if sequence.length < 2 then sequence
  else
    let n := sequence.length
    let w := (sequence.headD []).length
    let newLen := (max 2 (pyRound ((n : ℚ) * scale))).toNat
    (List.range newLen).map fun i =>
      (List.range w).map fun j =>
        AugmentFixed.interpAt (AugmentFixed.column sequence j)
          (AugmentFixed.linTarget n newLen i)

/-- Embeds `add_noise` (sequence_pipeline augment_sequences.py:88-90). -/
def add_noise (sequence : List (List ℚ)) (noise : List (List ℚ)) : List (List ℚ) :=
  List.zipWith (fun r nr => List.zipWith (· + ·) r nr) sequence noise

end AugmentSeqPipe

namespace AugmentFixed

/-- Python `f"{index:02d}"`: decimal digits zero-padded to width at least 2. -/
def pad2 (n : ℕ) : String :=
  if n < 10 then "0" ++ toString n else toString n

/-- One JSON file written by `save_sequence` (augment_sequences.py:200-218):
its name `<stem>_<suffix>_<NN>.json` and the payload fields that depend on
the augmented sequence. -/
structure SavedFile where
  filename : String
  suffix : String
  index : ℕ
  frame_count : ℕ
  features : List (List ℚ)
  deriving Repr, DecidableEq

/-- Embeds `save_sequence` (augment_sequences.py:200-218) for one input file
with stem `stem`. -/
def save_sequence (stem : String) (suffix : String) (index : ℕ)
    (sequence : List (List ℚ)) : SavedFile :=
  { filename := stem ++ "_" ++ suffix ++ "_" ++ pad2 index ++ ".json"
    suffix := suffix
    index := index
    frame_count := sequence.length
    features := sequence }

/-- Embeds the per-input-file body of `main` (augment_sequences.py:229-250):
skip when `features.size == 0`, optionally write the original with suffix
`orig` and index 0, then — unless the operation list is empty — write one
file with suffix `aug` and index `i` for each `i in range(1, copies+1)`,
where `aug i` is the result of `apply_ops` on the `i`-th copy. -/
def process_file (stem : String) (features : List (List ℚ))
    (includeOriginal : Bool) (ops : List String) (copies : ℤ)
    (aug : ℕ → List (List ℚ)) : List SavedFile :=
  if (features.map (fun r => r.length)).sum = 0 then []
  else
    (if includeOriginal then [save_sequence stem "orig" 0 features] else [])
    ++ (if ops = [] then []
        else (List.range' 1 copies.toNat).map fun i =>
          save_sequence stem "aug" i (aug i))

end AugmentFixed

namespace CollectData

/-!
Shallow embedding of `parse_stream_line`
(`ActionRecognitionModule/python/collect_data.py:73-93`).  Python strings
are modelled as `List Char`; Python `float(...)` conversion is abstracted as
a parameter `pfloat : List Char → Option ℚ` (`none` = `ValueError`), about
which the theorems assume only what is true of Python's `float`: a token
whose first character is `#` never converts.
-/

/-- Characters removed by Python `str.strip()`. -/
def pyIsSpace (c : Char) : Bool :=
  c = ' ' || c = '\t' || c = '\n' || c = '\r' || c = '\x0b' || c = '\x0c'

/-- Embeds Python `line.split(",")`: splitting on every comma, keeping empty
tokens, with `[""]` for the empty string. -/
def splitComma : List Char → List (List Char)
  | [] => [[]]
  | c :: rest =>
    if c = ',' then [] :: splitComma rest
    else
      match splitComma rest with
      | [] => [[c]]
      | t :: ts => (c :: t) :: ts

/-- Embeds Python `token.strip()`: drop whitespace from both ends. -/
def trimChars (l : List Char) : List Char :=
  ((l.dropWhile pyIsSpace).reverse.dropWhile pyIsSpace).reverse

/-- Embeds the list comprehension
`[float(token.strip()) for token in tokens]` under a `try/except ValueError`
returning `None`: the first failing conversion aborts the whole line. -/
def convertAll (pfloat : List Char → Option ℚ) : List (List Char) → Option (List ℚ)
  | [] => some []
  | t :: ts =>
    match pfloat (trimChars t) with
    | none => none
    | some v =>
      match convertAll pfloat ts with
      | none => none
      | some vs => some (v :: vs)

/-- Embeds `parse_stream_line` (collect_data.py:73-93): discard empty lines
and `#` comments, require exactly 8 comma-separated tokens, convert each
token with `float` and discard the line on any conversion failure. -/
def parse_stream_line (pfloat : List Char → Option ℚ) (line : List Char) :
    Option (List ℚ) :=
  if line = [] ∨ line.head? = some '#' then none
  else
    let tokens := splitComma line
    if tokens.length ≠ 8 then none
    else convertAll pfloat tokens

end CollectData

namespace SeqInfer

/-!
Shallow embedding of
`ActionRecognitionModule/sequence_pipeline/python/sequence_infer.py`
(the extended revision of the Sequence Inference CLI).  The trained network
is abstracted: `weights : W` stands for the loaded weights file and
`net : W → List (List ℚ) → List ℚ` for running `SequenceGRU` on the
normalized sequence, producing the logits row.  The probability outputs
live in `ℝ` because softmax uses the exponential function.
-/

/-- The fields of the config JSON used by the CLI (sequence_infer.py:97-106). -/
structure SeqConfig where
  labels : List String
  feature_mean : List ℚ
  feature_std : List ℚ
  feature_names : List String

/-- The command-line arguments of the extended revision that affect the
result (sequence_infer.py:36-47). -/
structure InferArgs where
  low_pass_window : ℤ
  auto_idle : Bool
  idle_label : String
  idle_pressure_std : ℚ
  idle_pressure_mean : ℚ
  idle_accel_std : ℚ
  idle_gyro_std : ℚ

/-- Mean of a list, `np.mean` (sum / length; length 0 never occurs on the
paths proved about). -/
def listMean (l : List ℚ) : ℚ := l.sum / l.length

/-- Population variance of a list, i.e. `np.std(l) ** 2`. -/
def listVar (l : List ℚ) : ℚ :=
  ((l.map fun x => (x - listMean l) ^ 2).sum) / l.length

/-- The four statistics of `compute_idle_stats` (sequence_infer.py:68-75),
carried as variances: `np.std` is the square root of `listVar`, and the
maximum of standard deviations is the square root of the maximum of
variances, so `std ≤ t` is expressed exactly as `0 ≤ t ∧ var ≤ t²`. -/
structure IdleStats where
  pressure_var : ℚ
  pressure_mean_abs : ℚ
  accel_var_max : ℚ
  gyro_var_max : ℚ

/-- Embeds `compute_idle_stats` (sequence_infer.py:68-75): pressure is
column 0, accelerometer columns 1-3, gyroscope columns 4-6. -/
def compute_idle_stats (sequence : List (List ℚ)) : IdleStats :=
  { pressure_var := listVar (AugmentFixed.column sequence 0)
    pressure_mean_abs :=
      listMean ((AugmentFixed.column sequence 0).map fun x => |x|)
    accel_var_max :=
      max (listVar (AugmentFixed.column sequence 1))
        (max (listVar (AugmentFixed.column sequence 2))
          (listVar (AugmentFixed.column sequence 3)))
    gyro_var_max :=
      max (listVar (AugmentFixed.column sequence 4))
        (max (listVar (AugmentFixed.column sequence 5))
          (listVar (AugmentFixed.column sequence 6))) }

/-- Decides `sqrt v ≤ t` for a variance `v ≥ 0`: exactly `0 ≤ t ∧ v ≤ t²`. -/
def sqrtVarLe (v t : ℚ) : Bool := decide (0 ≤ t ∧ v ≤ t * t)

/-- Embeds `detect_idle` (sequence_infer.py:78-84): all four statistics at
or below their thresholds. -/
def detect_idle (stats : IdleStats) (args : InferArgs) : Bool :=
  sqrtVarLe stats.pressure_var args.idle_pressure_std
  && decide (stats.pressure_mean_abs ≤ args.idle_pressure_mean)
  && sqrtVarLe stats.accel_var_max args.idle_accel_std
  && sqrtVarLe stats.gyro_var_max args.idle_gyro_std

/-- One output point of `np.convolve(col, np.ones(w)/w, mode="same")`:
the average of the window of `w` inputs centred (left-biased) at `i`,
with out-of-range positions contributing 0. -/
def convSameAvg (col : List ℚ) (w : ℕ) (i : ℕ) : ℚ :=
  (((List.range w).map fun k =>
    if 0 ≤ (i : ℤ) + ((w - 1) / 2 : ℕ) - k
        ∧ (i : ℤ) + ((w - 1) / 2 : ℕ) - k < (col.length : ℤ)
    then col.getD ((i : ℤ) + ((w - 1) / 2 : ℕ) - k).toNat 0
    else 0).sum) / (w : ℚ)

/-- Embeds `low_pass_filter` (sequence_infer.py:58-65): no-op for window ≤ 1
or fewer than 2 frames, otherwise a centred moving average per column. -/
def low_pass_filter (sequence : List (List ℚ)) (window : ℤ) : List (List ℚ) :=
  if window ≤ 1 ∨ sequence.length < 2 then sequence
  else
    (List.range sequence.length).map fun i =>
      (List.range (sequence.headD []).length).map fun j =>
        convSameAvg (AugmentFixed.column sequence j) window.toNat i

/-- The JSON verdict printed by the CLI: `label`, `probability`,
`probabilities` (label → probability in label order) and the
`detected_idle` flag (absent = false on the network path). -/
structure InferResult where
  label : String
  probability : ℝ
  probabilities : List (String × ℝ)
  detected_idle : Bool

/-- Embeds the idle-path result dict (sequence_infer.py:120-126). -/
def idle_result (labels : List String) (idleLabel : String) : InferResult :=
  { label := idleLabel
    probability := 1
    probabilities := labels.map fun l => (l, if l = idleLabel then (1 : ℝ) else 0)
    detected_idle := true }

/-- Embeds `torch.nn.functional.softmax` over the logits row. -/
noncomputable def softmax (l : List ℝ) : List ℝ :=
  l.map fun x => Real.exp x / (l.map Real.exp).sum

/-- Embeds `np.argmax`: index of the first maximal element (ties keep the
earlier index, matching numpy). -/
noncomputable def argmax (l : List ℝ) : ℕ :=
  (List.range l.length).foldl
    (fun b i => if l.getD b 0 < l.getD i 0 then i else b) 0

/-- Embeds the network-path result dict (sequence_infer.py:148-156):
softmax the logits, report the argmax label, its probability, and the full
label→probability mapping. -/
noncomputable def net_result (labels : List String) (logits : List ℚ) : InferResult :=
  { label := labels.getD (argmax (softmax (logits.map fun q : ℚ => (q : ℝ)))) ""
    probability := (softmax (logits.map fun q : ℚ => (q : ℝ))).getD
      (argmax (softmax (logits.map fun q : ℚ => (q : ℝ)))) 0
    probabilities := labels.zip (softmax (logits.map fun q : ℚ => (q : ℝ)))
    detected_idle := false }

/-- Embeds `(sequence - feature_mean) / feature_std` (sequence_infer.py:131),
the per-feature z-score broadcast over the rows. -/
def zscore (sequence : List (List ℚ)) (mean std : List ℚ) : List (List ℚ) :=
  sequence.map fun row =>
    List.zipWith (fun x p => (x - p.1) / p.2) row (mean.zip std)

/-- Embeds `main` (sequence_infer.py:87-157) from the point where input and
config are parsed: validation (`no features`, rectangular array, feature
width vs `feature_names`), the low-pass filter, the auto-idle short-circuit,
and otherwise normalization followed by the network and softmax.  The
rectangularity failure stands for the `np.array` error on ragged input; the
broadcast failure stands for the `ValueError` raised when an active low-pass
window exceeds the sequence length (then `np.convolve(..., "same")` returns
`window` points, which cannot be assigned to a length-`len` column). -/
noncomputable def mainResult {W : Type} (features : List (List ℚ))
    (cfg : SeqConfig) (args : InferArgs) (weights : W)
    (net : W → List (List ℚ) → List ℚ) : Except String InferResult :=
  if features = [] then .error "Input sequence has no features."
  else if ¬ (features.all fun r => r.length = (features.headD []).length) then
    .error "ragged feature rows"
  else if (features.headD []).length ≠ cfg.feature_names.length then
    .error "feature width mismatch"
  else if ¬ (args.low_pass_window ≤ 1 ∨ features.length < 2)
      ∧ (features.length : ℤ) < args.low_pass_window then
    .error "could not broadcast filtered column"
  else if args.auto_idle
      && detect_idle
        (compute_idle_stats (low_pass_filter features args.low_pass_window))
        args then
    .ok (idle_result cfg.labels args.idle_label)
  else
    .ok (net_result cfg.labels
      (net weights
        (zscore (low_pass_filter features args.low_pass_window)
          cfg.feature_mean cfg.feature_std)))

end SeqInfer

namespace SeqInfer

/-- Concrete near-constant test sequence: constant pressure 10, zero motion. -/
def idleSeqW : List (List ℚ) :=
  [[10, 0, 0, 0, 0, 0, 0], [10, 0, 0, 0, 0, 0, 0]]

/-- Concrete config whose labels include the idle label. -/
def idleCfgW : SeqConfig :=
  { labels := ["idle", "tap"]
    feature_mean := [0, 0, 0, 0, 0, 0, 0]
    feature_std := [1, 1, 1, 1, 1, 1, 1]
    feature_names := ["pressure", "ax", "ay", "az", "gx", "gy", "gz"] }

/-- Concrete config whose labels do not include the idle label. -/
def noIdleCfgW : SeqConfig :=
  { labels := ["tap", "hug"]
    feature_mean := [0, 0, 0, 0, 0, 0, 0]
    feature_std := [1, 1, 1, 1, 1, 1, 1]
    feature_names := ["pressure", "ax", "ay", "az", "gx", "gy", "gz"] }

/-- The CLI's default idle arguments with auto-idle enabled. -/
def idleArgsW : InferArgs :=
  { low_pass_window := 1
    auto_idle := true
    idle_label := "idle"
    idle_pressure_std := 5
    idle_pressure_mean := 15
    idle_accel_std := 1/50
    idle_gyro_std := 1/50 }

/-- Concrete config for the network path. -/
def netCfgW : SeqConfig :=
  { labels := ["a", "b"]
    feature_mean := [0, 0, 0, 0, 0, 0, 0]
    feature_std := [1, 1, 1, 1, 1, 1, 1]
    feature_names := ["pressure", "ax", "ay", "az", "gx", "gy", "gz"] }

/-- Arguments with auto-idle disabled. -/
def netArgsW : InferArgs :=
  { low_pass_window := 1
    auto_idle := false
    idle_label := "idle"
    idle_pressure_std := 5
    idle_pressure_mean := 15
    idle_accel_std := 1/50
    idle_gyro_std := 1/50 }

end SeqInfer

section TimeShiftLemmas

open AugmentFixed

lemma npRoll_length {α : Type} (l : List α) (k : ℤ) :
    (npRoll l k).length = l.length := by
  simp [npRoll]

lemma npRoll_perm {α : Type} (l : List α) (k : ℤ) : (npRoll l k).Perm l :=
  List.rotate_perm l _

lemma emod_add_emod_neg_self (k : ℤ) (n : ℤ) (hn : 0 < n) :
    (-k) % n + k % n = 0 ∨ (-k) % n + k % n = n := by
  have h1 : 0 ≤ (-k) % n := Int.emod_nonneg _ (ne_of_gt hn)
  have h2 : 0 ≤ k % n := Int.emod_nonneg _ (ne_of_gt hn)
  have h3 : (-k) % n < n := Int.emod_lt_of_pos _ hn
  have h4 : k % n < n := Int.emod_lt_of_pos _ hn
  have hz : ((-k) % n + k % n) % n = 0 := by
    rw [Int.add_emod, Int.emod_emod_of_dvd _ dvd_rfl, Int.emod_emod_of_dvd _ dvd_rfl]
    rw [← Int.add_emod]
    simp
  have hq : (-k) % n + k % n = n * (((-k) % n + k % n) / n) := by
    conv_lhs => rw [← Int.ediv_add_emod ((-k) % n + k % n) n]
    rw [hz]; ring
  set s := (-k) % n + k % n with hs
  have hge : 0 ≤ s := by positivity
  have hlt : s < 2 * n := by omega
  rcases Int.lt_or_le (s / n) 1 with hq1 | hq1
  · left
    have : s / n = 0 := by
      have h0 : 0 ≤ s / n := Int.ediv_nonneg hge (le_of_lt hn)
      omega
    rw [hq, this]; ring
  · right
    have h2q : s / n < 2 := by
      by_contra hcon
      push_neg at hcon
      have : 2 * n ≤ n * (s / n) := by
        calc 2 * n = n * 2 := by ring
        _ ≤ n * (s / n) := by
          exact mul_le_mul_of_nonneg_left hcon (le_of_lt hn)
      omega
    have : s / n = 1 := by omega
    rw [hq, this]; ring

lemma npRoll_npRoll_neg {α : Type} (l : List α) (k : ℤ) :
    npRoll (npRoll l k) (-k) = l := by
  rcases Nat.eq_zero_or_pos l.length with h0 | hpos
  · have : l = [] := List.length_eq_zero.mp h0
    subst this
    simp [npRoll]
  · have hn : (0 : ℤ) < (l.length : ℤ) := by exact_mod_cast hpos
    unfold npRoll
    rw [List.length_rotate, List.rotate_rotate, neg_neg]
    have h1 : 0 ≤ (-k) % (l.length : ℤ) := Int.emod_nonneg _ (ne_of_gt hn)
    have h2 : 0 ≤ k % (l.length : ℤ) := Int.emod_nonneg _ (ne_of_gt hn)
    rcases emod_add_emod_neg_self k (l.length : ℤ) hn with h | h
    · have ha : (-k) % (l.length : ℤ) = 0 := by omega
      have hb : k % (l.length : ℤ) = 0 := by omega
      simp [ha, hb]
    · have : ((-k) % (l.length : ℤ)).toNat + (k % (l.length : ℤ)).toNat = l.length := by
        omega
      rw [this, List.rotate_length]

lemma time_shift_length {α : Type} (l : List α) (r : ℚ) (k : ℤ) :
    (time_shift l r k).length = l.length := by
  unfold time_shift
  split
  · rfl
  · split
    · rfl
    · exact npRoll_length l k

end TimeShiftLemmas

/-- C5: `time_shift` with shift `k` followed by `time_shift` with shift `-k`
reconstructs the original sequence exactly, for every sequence, max-ratio
setting and integer shift; moreover a single `time_shift` is a circular
rotation, hence a permutation of the input frames (wrap-around, no
truncation). -/
theorem time_shift_roundtrip {α : Type} (sequence : List α) (maxRatio : ℚ) (k : ℤ) :
    AugmentFixed.time_shift (AugmentFixed.time_shift sequence maxRatio k) maxRatio (-k)
      = sequence
    ∧ (AugmentFixed.time_shift sequence maxRatio k).Perm sequence := by
  constructor
  · unfold AugmentFixed.time_shift
    by_cases hguard : sequence.length < 2 ∨ maxRatio ≤ 0
    · simp [hguard]
    · simp only [hguard, if_false]
      by_cases hk : k = 0
      · subst hk
        simp
      · have hk' : -k ≠ 0 := neg_ne_zero.mpr hk
        simp only [hk, if_false]
        have hlen : ¬((AugmentFixed.npRoll sequence k).length < 2 ∨ maxRatio ≤ 0) := by
          rw [npRoll_length]
          exact hguard
        simp only [hlen, if_false, hk', npRoll_npRoll_neg]
  · unfold AugmentFixed.time_shift
    split
    · exact List.Perm.refl _
    · split
      · exact List.Perm.refl _
      · exact npRoll_perm sequence k

section RandomCropLemmas

lemma crop_len_mono (n : ℕ) (a b : ℚ) (hab : a ≤ b) :
    (max 2 ⌈(n : ℚ) * a⌉).toNat ≤ (max 2 ⌈(n : ℚ) * b⌉).toNat := by
  have h1 : ⌈(n : ℚ) * a⌉ ≤ ⌈(n : ℚ) * b⌉ :=
    Int.ceil_le_ceil (mul_le_mul_of_nonneg_left hab (by positivity))
  have h2 : (max 2 ⌈(n : ℚ) * a⌉) ≤ (max 2 ⌈(n : ℚ) * b⌉) := max_le_max le_rfl h1
  omega

lemma crop_len_le_len (n : ℕ) (a : ℚ) (h2 : 2 ≤ n) (ha : a ≤ 1) :
    (max 2 ⌈(n : ℚ) * a⌉).toNat ≤ n := by
  have h1 : ⌈(n : ℚ) * a⌉ ≤ ⌈((n : ℚ))⌉ := by
    apply Int.ceil_le_ceil
    calc (n : ℚ) * a ≤ (n : ℚ) * 1 := mul_le_mul_of_nonneg_left ha (by positivity)
    _ = (n : ℚ) := mul_one _
  have h2' : ⌈((n : ℚ))⌉ = (n : ℤ) := Int.ceil_natCast n
  have h3 : max 2 ⌈(n : ℚ) * a⌉ ≤ (n : ℤ) := by
    apply max_le <;> omega
  omega

lemma random_crop_eq (sequence : List (List ℚ)) (ratio : ℚ) (start : ℕ)
    (h : ¬ sequence.length < 2) :
    AugmentFixed.random_crop sequence ratio start =
      if sequence.length ≤ (max 2 ⌈(sequence.length : ℚ) * ratio⌉).toNat
      then sequence
      else (sequence.drop start).take (max 2 ⌈(sequence.length : ℚ) * ratio⌉).toNat := by
  unfold AugmentFixed.random_crop
  rw [if_neg h]

end RandomCropLemmas

/-- C2 (amended with `min_ratio ≤ 1`): for a sequence of length `≥ 2`, a drawn
ratio inside the configured bounds, and a drawn start in `[0, len - crop_len]`,
the output of `random_crop` has length in
`[max(2, ceil(len·min_ratio)), len]`; it equals the contiguous slice
`sequence[start : start+crop_len]` when `crop_len = max(2, ceil(len·ratio))`
is less than the length, and the whole input otherwise. -/
theorem random_crop_window (sequence : List (List ℚ)) (minR maxR ratio : ℚ)
    (start : ℕ)
    (h2 : 2 ≤ sequence.length)
    (hlo : minR ≤ ratio) (hhi : ratio ≤ maxR) (h1 : minR ≤ 1)
    (hstart : (max 2 ⌈(sequence.length : ℚ) * ratio⌉).toNat < sequence.length →
      start ≤ sequence.length - (max 2 ⌈(sequence.length : ℚ) * ratio⌉).toNat) :
    (max 2 ⌈(sequence.length : ℚ) * minR⌉).toNat
        ≤ (AugmentFixed.random_crop sequence ratio start).length
    ∧ (AugmentFixed.random_crop sequence ratio start).length ≤ sequence.length
    ∧ ((max 2 ⌈(sequence.length : ℚ) * ratio⌉).toNat < sequence.length →
        AugmentFixed.random_crop sequence ratio start
          = (sequence.drop start).take
              (max 2 ⌈(sequence.length : ℚ) * ratio⌉).toNat)
    ∧ (sequence.length ≤ (max 2 ⌈(sequence.length : ℚ) * ratio⌉).toNat →
        AugmentFixed.random_crop sequence ratio start = sequence) := by
  have hn2 : ¬ (sequence.length < 2) := by omega
  rw [random_crop_eq sequence ratio start hn2]
  by_cases hbig : sequence.length ≤ (max 2 ⌈(sequence.length : ℚ) * ratio⌉).toNat
  · rw [if_pos hbig]
    refine ⟨?_, le_rfl, fun hlt => absurd hbig (by omega), fun _ => rfl⟩
    exact le_trans (crop_len_mono sequence.length minR 1 h1)
      (crop_len_le_len sequence.length 1 h2 le_rfl)
  · rw [if_neg hbig]
    push_neg at hbig
    have hstart' := hstart hbig
    have hlen : ((sequence.drop start).take
        (max 2 ⌈(sequence.length : ℚ) * ratio⌉).toNat).length
        = (max 2 ⌈(sequence.length : ℚ) * ratio⌉).toNat := by
      rw [List.length_take, List.length_drop]
      omega
    refine ⟨?_, ?_, fun _ => rfl, fun hge => absurd hge (by omega)⟩
    · rw [hlen]
      exact crop_len_mono sequence.length minR ratio hlo
    · rw [hlen]
      omega

/-- C2 witness: concrete run on a length-4 input with crop-ratio bounds
`[1/2, 1/2]`, drawn ratio `1/2` and drawn start 1: the crop keeps frames 1-2. -/
theorem random_crop_window_witness :
    2 ≤ (AugmentFixed.random_crop [[(0 : ℚ)], [1], [2], [3]] (1/2) 1).length
    ∧ (AugmentFixed.random_crop [[(0 : ℚ)], [1], [2], [3]] (1/2) 1).length ≤ 4
    ∧ AugmentFixed.random_crop [[(0 : ℚ)], [1], [2], [3]] (1/2) 1 = [[1], [2]] := by
  have h := random_crop_window [[(0 : ℚ)], [1], [2], [3]] (1/2) (1/2) (1/2) 1
    (by norm_num) le_rfl le_rfl (by norm_num) (by intro _; norm_num; decide)
  refine ⟨le_trans (by norm_num) h.1, h.2.1, ?_⟩
  have h3 := h.2.2.1 (by norm_num)
  rw [h3]
  norm_num
  rfl

/-- C2 counterexample: with crop-ratio bounds `[2, 2]` (so the drawn ratio is
2, inside the configured bounds) and a length-2 input, `random_crop` returns
the whole input of length 2, while the claimed lower bound
`max(2, ceil(len·min_ratio)) = 4` demands length at least 4: the claim as
stated is false for configurations with `min_ratio > 1`. -/
theorem random_crop_lower_bound_cex :
    (AugmentFixed.random_crop [[(0 : ℚ)], [0]] 2 0).length = 2
    ∧ ¬ ((max 2 ⌈((([[(0 : ℚ)], [0]] : List (List ℚ)).length : ℚ)) * 2⌉).toNat
          ≤ (AugmentFixed.random_crop [[(0 : ℚ)], [0]] 2 0).length) := by
  constructor
  · simp only [AugmentFixed.random_crop]
    norm_num
  · simp only [AugmentFixed.random_crop]
    norm_num

section TimeScaleLemmas

lemma map_getD_range (l : List ℚ) :
    (List.range l.length).map (fun j => l.getD j 0) = l := by
  apply List.ext_getElem (by simp)
  intro i h1 h2
  rw [List.getElem_map, List.getElem_range]
  exact List.getD_eq_getElem l 0 h2

lemma head?_range_map {β : Type} (f : ℕ → β) (m : ℕ) (hm : 0 < m) :
    ((List.range m).map f).head? = some (f 0) := by
  obtain ⟨k, rfl⟩ : ∃ k, m = k + 1 := ⟨m - 1, by omega⟩
  rw [List.range_succ_eq_map]
  rfl

lemma getLast?_range_map {β : Type} (f : ℕ → β) (m : ℕ) (hm : 0 < m) :
    ((List.range m).map f).getLast? = some (f (m - 1)) := by
  rw [List.getLast?_eq_getElem?, List.length_map, List.length_range,
      List.getElem?_map, List.getElem?_range (by omega)]
  rfl

lemma linTarget_zero (n m : ℕ) : AugmentFixed.linTarget n m 0 = 0 := by
  simp [AugmentFixed.linTarget]

lemma linTarget_last (n m : ℕ) (hm : 2 ≤ m) :
    AugmentFixed.linTarget n m (m - 1) = (n : ℚ) - 1 := by
  unfold AugmentFixed.linTarget
  have h1 : ((m - 1 : ℕ) : ℚ) = (m : ℚ) - 1 := by
    push_cast [Nat.cast_sub (by omega : 1 ≤ m)]
    ring
  have h2 : (m : ℚ) - 1 ≠ 0 := by
    have hc : (2 : ℚ) ≤ (m : ℚ) := by exact_mod_cast hm
    intro hz
    rw [sub_eq_zero] at hz
    rw [hz] at hc
    norm_num at hc
  rw [h1, mul_comm, mul_div_assoc, div_self h2, mul_one]

lemma interpAt_zero (col : List ℚ) :
    AugmentFixed.interpAt col 0 = col.getD 0 0 := by
  simp [AugmentFixed.interpAt]

lemma interpAt_last (col : List ℚ) (h : 2 ≤ col.length) :
    AugmentFixed.interpAt col ((col.length : ℚ) - 1)
      = col.getD (col.length - 1) 0 := by
  unfold AugmentFixed.interpAt
  have h0 : ¬ ((col.length : ℚ) - 1 ≤ 0) := by
    have hc : (2 : ℚ) ≤ (col.length : ℚ) := by exact_mod_cast h
    intro hcon
    linarith
  rw [if_neg h0, if_pos (le_refl _)]

lemma column_length (s : List (List ℚ)) (j : ℕ) :
    (AugmentFixed.column s j).length = s.length := by
  simp [AugmentFixed.column]

lemma column_getD (s : List (List ℚ)) (j i : ℕ) (h : i < s.length) :
    (AugmentFixed.column s j).getD i 0 = (s.getD i []).getD j 0 := by
  unfold AugmentFixed.column
  rw [List.getD_eq_getElem _ _ (by simpa using h), List.getElem_map,
      List.getD_eq_getElem s [] h]

lemma max_two_toNat_ge (z : ℤ) : 2 ≤ (max 2 z).toNat := by omega

end TimeScaleLemmas

/-- C3: for a rectangular sequence of length `≥ 2` and any drawn scale factor
`s`, `time_scale` produces exactly `max(2, round(len·s))` frames (Python
banker's rounding), and its first and last resampled frames equal the input's
first and last frames (interpolation boundary property). -/
theorem time_scale_resample (sequence : List (List ℚ)) (scale : ℚ)
    (h2 : 2 ≤ sequence.length)
    (hrect : ∀ r ∈ sequence, r.length = (sequence.headD []).length) :
    (AugmentFixed.time_scale sequence scale).length
        = (max 2 (pyRound ((sequence.length : ℚ) * scale))).toNat
    ∧ (AugmentFixed.time_scale sequence scale).head? = sequence.head?
    ∧ (AugmentFixed.time_scale sequence scale).getLast? = sequence.getLast? := by
  have hn2 : ¬ (sequence.length < 2) := by omega
  have hout : AugmentFixed.time_scale sequence scale
      = (List.range (max 2 (pyRound ((sequence.length : ℚ) * scale))).toNat).map
          (fun i =>
            (List.range (sequence.headD []).length).map fun j =>
              AugmentFixed.interpAt (AugmentFixed.column sequence j)
                (AugmentFixed.linTarget sequence.length
                  (max 2 (pyRound ((sequence.length : ℚ) * scale))).toNat i)) := by
    unfold AugmentFixed.time_scale
    rw [if_neg hn2]
  set m := (max 2 (pyRound ((sequence.length : ℚ) * scale))).toNat with hm
  have hm2 : 2 ≤ m := max_two_toNat_ge _
  obtain ⟨r0, rest, rfl⟩ : ∃ r0 rest, sequence = r0 :: rest := by
    cases sequence with
    | nil => simp at h2
    | cons a l => exact ⟨a, l, rfl⟩
  refine ⟨by rw [hout]; simp, ?_, ?_⟩
  · rw [hout, head?_range_map _ _ (by omega)]
    have hrow : ∀ j, AugmentFixed.interpAt (AugmentFixed.column (r0 :: rest) j)
        (AugmentFixed.linTarget (r0 :: rest).length m 0) = r0.getD j 0 := by
      intro j
      rw [linTarget_zero, interpAt_zero,
          column_getD _ _ _ (by simp : 0 < (r0 :: rest).length)]
      rfl
    simp only [hrow]
    have hw : ((r0 :: rest).headD []).length = r0.length := rfl
    rw [hw, map_getD_range]
    rfl
  · rw [hout, getLast?_range_map _ _ (by omega)]
    set s := r0 :: rest with hs
    set n := s.length with hn
    have hn2' : 2 ≤ n := h2
    have hlast : n - 1 < n := by omega
    have hrow : ∀ j, AugmentFixed.interpAt (AugmentFixed.column s j)
        (AugmentFixed.linTarget n m (m - 1)) = (s.getD (n - 1) []).getD j 0 := by
      intro j
      rw [linTarget_last n m hm2]
      have hcl : (AugmentFixed.column s j).length = n := column_length s j
      have : ((n : ℚ) - 1) = ((AugmentFixed.column s j).length : ℚ) - 1 := by
        rw [hcl]
      rw [this, interpAt_last _ (by rw [hcl]; omega), hcl]
      exact column_getD s j (n - 1) hlast
    simp only [hrow]
    have hlen : (s.getD (n - 1) []).length = ((s.headD []).length) := by
      apply hrect
      rw [List.getD_eq_getElem s [] hlast]
      exact List.getElem_mem hlast
    have hw : (s.headD []).length = (s.getD (n - 1) []).length := hlen.symm
    rw [hs] at hw ⊢
    have hw' : ((r0 :: rest).headD []).length
        = ((r0 :: rest).getD (n - 1) []).length := hw
    rw [hw', map_getD_range]
    rw [List.getLast?_eq_getElem?, ← hs, ← hn]
    rw [List.getD_eq_getElem s [] hlast, List.getElem?_eq_getElem hlast]

/-- C3 witness: scaling the two-frame sequence `[[1],[3]]` by `s = 2` yields
`max(2, round(4)) = 4` frames whose first and last frames are the input's. -/
theorem time_scale_resample_witness :
    (AugmentFixed.time_scale [[(1 : ℚ)], [3]] 2).length
        = (max 2 (pyRound ((([[(1 : ℚ)], [3]] : List (List ℚ)).length : ℚ) * 2))).toNat
    ∧ (AugmentFixed.time_scale [[(1 : ℚ)], [3]] 2).head? = some [(1 : ℚ)]
    ∧ (AugmentFixed.time_scale [[(1 : ℚ)], [3]] 2).getLast? = some [(3 : ℚ)] := by
  have h := time_scale_resample [[(1 : ℚ)], [3]] 2 (by norm_num) (by decide)
  exact ⟨h.1, h.2.1, h.2.2⟩

section TimeMaskLemmas

open AugmentFixed

lemma zeroColsFrom_length (cols : List ℕ) (r : List ℚ) :
    ∀ j0, (zeroColsFrom cols j0 r).length = r.length := by
  induction r with
  | nil => intro j0; rfl
  | cons v vs ih =>
    intro j0
    simp [zeroColsFrom, ih]

lemma zeroColsFrom_getD (cols : List ℕ) (r : List ℚ) :
    ∀ j0 j, (zeroColsFrom cols j0 r).getD j 0
      = if (j0 + j) ∈ cols then 0 else r.getD j 0 := by
  induction r with
  | nil =>
    intro j0 j
    simp [zeroColsFrom, List.getD]
  | cons v vs ih =>
    intro j0 j
    cases j with
    | zero => simp [zeroColsFrom]
    | succ j' =>
      have h := ih (j0 + 1) j'
      simp only [zeroColsFrom, List.getD_cons_succ, h]
      have harith : j0 + 1 + j' = j0 + (j' + 1) := by omega
      rw [harith]

lemma maskRowsFrom_length (cols : List ℕ) (s L : ℕ) (m : List (List ℚ)) :
    ∀ i0, (maskRowsFrom cols s L i0 m).length = m.length := by
  induction m with
  | nil => intro i0; rfl
  | cons r rs ih =>
    intro i0
    simp [maskRowsFrom, ih]

lemma maskRowsFrom_getD (cols : List ℕ) (s L : ℕ) (m : List (List ℚ)) :
    ∀ i0 i, (maskRowsFrom cols s L i0 m).getD i []
      = if s ≤ i0 + i ∧ i0 + i < s + L
        then zeroColsFrom cols 0 (m.getD i []) else m.getD i [] := by
  induction m with
  | nil =>
    intro i0 i
    simp [maskRowsFrom, List.getD, zeroColsFrom]
  | cons r rs ih =>
    intro i0 i
    cases i with
    | zero => simp [maskRowsFrom]
    | succ i' =>
      have h := ih (i0 + 1) i'
      simp only [maskRowsFrom, List.getD_cons_succ, h]
      have harith : i0 + 1 + i' = i0 + (i' + 1) := by omega
      rw [harith]

lemma maskFold_length (cols : List ℕ) (L : ℕ) (starts : ℕ → ℕ)
    (m : List (List ℚ)) :
    ∀ reps, ((List.range reps).foldl
      (fun acc k => maskRowsFrom cols (starts k) L 0 acc) m).length = m.length := by
  intro reps
  induction reps with
  | zero => rfl
  | succ n ih =>
    rw [List.range_succ, List.foldl_append, List.foldl_cons, List.foldl_nil,
        maskRowsFrom_length]
    exact ih

lemma maskFold_row_length (cols : List ℕ) (L : ℕ) (starts : ℕ → ℕ)
    (m : List (List ℚ)) :
    ∀ reps i, (((List.range reps).foldl
      (fun acc k => maskRowsFrom cols (starts k) L 0 acc) m).getD i []).length
      = (m.getD i []).length := by
  intro reps
  induction reps with
  | zero => intro i; rfl
  | succ n ih =>
    intro i
    rw [List.range_succ, List.foldl_append, List.foldl_cons, List.foldl_nil,
        maskRowsFrom_getD]
    split
    · rw [zeroColsFrom_length]
      exact ih i
    · exact ih i

lemma maskFold_cell_masked (cols : List ℕ) (L : ℕ) (starts : ℕ → ℕ)
    (m : List (List ℚ)) (i j : ℕ) :
    ∀ reps, j ∈ cols →
      (∃ k, k < reps ∧ starts k ≤ i ∧ i < starts k + L) →
      ((((List.range reps).foldl
        (fun acc k => maskRowsFrom cols (starts k) L 0 acc) m).getD i []).getD j 0)
      = 0 := by
  intro reps
  induction reps with
  | zero =>
    rintro hj ⟨k, hk, -⟩
    omega
  | succ n ih =>
    rintro hj ⟨k, hk, hP⟩
    rw [List.range_succ, List.foldl_append, List.foldl_cons, List.foldl_nil,
        maskRowsFrom_getD]
    by_cases hW : starts n ≤ 0 + i ∧ 0 + i < starts n + L
    · rw [if_pos hW, zeroColsFrom_getD]
      rw [if_pos (by simpa using hj)]
    · rw [if_neg hW]
      rcases Nat.lt_or_ge k n with hkn | hkn
      · exact ih hj ⟨k, hkn, hP⟩
      · exfalso
        have hkn' : k = n := by omega
        subst hkn'
        exact hW (by omega)

lemma maskFold_cell_untouched (cols : List ℕ) (L : ℕ) (starts : ℕ → ℕ)
    (m : List (List ℚ)) (i j : ℕ) :
    ∀ reps, (j ∉ cols ∨ ∀ k, k < reps → ¬(starts k ≤ i ∧ i < starts k + L)) →
      ((((List.range reps).foldl
        (fun acc k => maskRowsFrom cols (starts k) L 0 acc) m).getD i []).getD j 0)
      = (m.getD i []).getD j 0 := by
  intro reps
  induction reps with
  | zero => intro _; rfl
  | succ n ih =>
    intro H
    rw [List.range_succ, List.foldl_append, List.foldl_cons, List.foldl_nil,
        maskRowsFrom_getD]
    have Hweak : j ∉ cols ∨ ∀ k, k < n → ¬(starts k ≤ i ∧ i < starts k + L) := by
      rcases H with h | h
      · exact Or.inl h
      · exact Or.inr fun k hk => h k (by omega)
    by_cases hW : starts n ≤ 0 + i ∧ 0 + i < starts n + L
    · rw [if_pos hW, zeroColsFrom_getD]
      have hj : j ∉ cols := by
        rcases H with h | h
        · exact h
        · exact absurd (by simpa using hW) (h n (by omega))
      rw [if_neg (by simpa using hj)]
      exact ih Hweak
    · rw [if_neg hW]
      exact ih Hweak

lemma time_mask_eq_fold (sequence : List (List ℚ)) (ratio : ℚ) (chunks : ℤ)
    (targets : List String) (starts : ℕ → ℕ)
    (h : ¬(ratio ≤ 0 ∨ sequence.length < 2)) :
    AugmentFixed.time_mask sequence ratio chunks targets starts
      = (List.range (maskReps chunks)).foldl
          (fun m k => maskRowsFrom (resolvedColumns targets (sequence.headD []).length)
            (starts k) (maskChunkLen sequence.length ratio chunks) 0 m) sequence := by
  unfold AugmentFixed.time_mask
  rw [if_neg h]

end TimeMaskLemmas

/-- C4 (amended: `max(1, chunks)` repetitions instead of `chunks`): for a
sequence of length `≥ 2` and a positive ratio, `time_mask` performs exactly
`max(1, chunks)` masking repetitions with windows of
`chunk_len = max(1, total_frames // max(1, chunks))` frames at the drawn
starts; a cell is zeroed iff its column is in the resolved target-column set
and its row lies in one of the windows, every other cell equals the
corresponding input cell, and the output shape equals the input shape. -/
theorem time_mask_cells (sequence : List (List ℚ)) (ratio : ℚ) (chunks : ℤ)
    (targets : List String) (starts : ℕ → ℕ)
    (h2 : 2 ≤ sequence.length) (hr : 0 < ratio) :
    (AugmentFixed.time_mask sequence ratio chunks targets starts).length
        = sequence.length
    ∧ (∀ i, ((AugmentFixed.time_mask sequence ratio chunks targets starts).getD i []).length
        = (sequence.getD i []).length)
    ∧ (∀ i j, j ∈ AugmentFixed.resolvedColumns targets (sequence.headD []).length →
        (∃ k, k < AugmentFixed.maskReps chunks ∧ starts k ≤ i
          ∧ i < starts k + AugmentFixed.maskChunkLen sequence.length ratio chunks) →
        ((AugmentFixed.time_mask sequence ratio chunks targets starts).getD i []).getD j 0 = 0)
    ∧ (∀ i j, (j ∉ AugmentFixed.resolvedColumns targets (sequence.headD []).length
          ∨ ∀ k, k < AugmentFixed.maskReps chunks →
            ¬(starts k ≤ i ∧ i < starts k + AugmentFixed.maskChunkLen sequence.length ratio chunks)) →
        ((AugmentFixed.time_mask sequence ratio chunks targets starts).getD i []).getD j 0
          = (sequence.getD i []).getD j 0) := by
  have hguard : ¬(ratio ≤ 0 ∨ sequence.length < 2) := by
    push_neg
    exact ⟨hr, by omega⟩
  rw [time_mask_eq_fold sequence ratio chunks targets starts hguard]
  refine ⟨maskFold_length _ _ _ _ _, maskFold_row_length _ _ _ _ _, ?_, ?_⟩
  · intro i j hj hex
    exact maskFold_cell_masked _ _ _ _ i j _ hj hex
  · intro i j H
    exact maskFold_cell_untouched _ _ _ _ i j _ H

/-- C4 witness: masking a 2x2 sequence with ratio 1, one chunk, target group
`pressure` and drawn start 0 zeroes column 0 on the windowed rows and leaves
column 1 untouched. -/
theorem time_mask_cells_witness :
    (AugmentFixed.time_mask [[(1 : ℚ), 5], [2, 6]] 1 1 ["pressure"] (fun _ => 0)).length = 2
    ∧ ((AugmentFixed.time_mask [[(1 : ℚ), 5], [2, 6]] 1 1 ["pressure"] (fun _ => 0)).getD 0 []).getD 0 0 = 0
    ∧ ((AugmentFixed.time_mask [[(1 : ℚ), 5], [2, 6]] 1 1 ["pressure"] (fun _ => 0)).getD 0 []).getD 1 0 = 5 := by
  have hcl : AugmentFixed.maskChunkLen ([[(1 : ℚ), 5], [2, 6]] : List (List ℚ)).length 1 1 = 2 := by
    simp [AugmentFixed.maskChunkLen, AugmentFixed.maskTotalFrames,
      AugmentFixed.maskReps]
  have h := time_mask_cells [[(1 : ℚ), 5], [2, 6]] 1 1 ["pressure"] (fun _ => 0)
    (by norm_num) (by norm_num)
  refine ⟨h.1, ?_, ?_⟩
  · apply h.2.2.1 0 0
    · decide
    · refine ⟨0, by decide, Nat.le_refl _, ?_⟩
      show 0 < 0 + AugmentFixed.maskChunkLen ([[(1 : ℚ), 5], [2, 6]] : List (List ℚ)).length 1 1
      omega
  · apply h.2.2.2 0 1
    left
    decide

/-- C4 counterexample: with `chunks = 0` the code still performs
`max(1, 0) = 1` masking repetition (the loop is `range(max(1, chunks))`),
so the output differs from the input, whereas the claim's "exactly `chunks`
repetitions" (zero of them) would leave the sequence unchanged. -/
theorem time_mask_chunks_zero_cex :
    AugmentFixed.time_mask [[(1 : ℚ)], [1]] 1 0 ["all"] (fun _ => 0)
      = [[(0 : ℚ)], [0]]
    ∧ ([[(0 : ℚ)], [0]] : List (List ℚ)) ≠ [[(1 : ℚ)], [1]] := by
  constructor
  · have hguard : ¬((1 : ℚ) ≤ 0 ∨ ([[(1 : ℚ)], [1]] : List (List ℚ)).length < 2) := by
      push_neg
      norm_num
    rw [time_mask_eq_fold _ _ _ _ _ hguard]
    have hreps : AugmentFixed.maskReps 0 = 1 := by decide
    have hcl : AugmentFixed.maskChunkLen ([[(1 : ℚ)], [1]] : List (List ℚ)).length 1 0 = 2 := by
      simp [AugmentFixed.maskChunkLen, AugmentFixed.maskTotalFrames,
        AugmentFixed.maskReps]
    have hcols : AugmentFixed.resolvedColumns ["all"]
        (([[(1 : ℚ)], [1]] : List (List ℚ)).headD []).length = [0] := by decide
    rw [hreps, hcl, hcols]
    simp [List.range_succ, AugmentFixed.maskRowsFrom, AugmentFixed.zeroColsFrom]
  · intro h
    have := congrArg (fun l => (l.getD 0 []).getD 0 (0 : ℚ)) h
    norm_num at this

/-- C7: the three operations shared by the Variable-Length Sequence
Augmentation CLI and the Fixed-Window Augmentation CLI (`random_crop`,
`time_scale`, `add_noise`) are the same functions: on every input sequence
and every sequence of random draws they compute identical outputs. -/
theorem shared_augmentation_ops_equal :
    AugmentSeqPipe.random_crop = AugmentFixed.random_crop
    ∧ AugmentSeqPipe.time_scale = AugmentFixed.time_scale
    ∧ AugmentSeqPipe.add_noise = AugmentFixed.add_noise :=
  ⟨rfl, rfl, rfl⟩

section ProcessFileLemmas

open AugmentFixed

lemma aug_files_no_orig (stem : String) (aug : ℕ → List (List ℚ)) (l : List ℕ) :
    (l.map fun i => save_sequence stem "aug" i (aug i)).filter
      (fun f => f.suffix == "orig") = [] := by
  rw [List.filter_eq_nil_iff]
  intro a ha
  obtain ⟨i, hi, rfl⟩ := List.mem_map.mp ha
  simp [save_sequence]

lemma aug_files_all_aug (stem : String) (aug : ℕ → List (List ℚ)) (l : List ℕ) :
    (l.map fun i => save_sequence stem "aug" i (aug i)).filter
      (fun f => f.suffix == "aug")
      = l.map fun i => save_sequence stem "aug" i (aug i) := by
  rw [List.filter_eq_self]
  intro a ha
  obtain ⟨i, hi, rfl⟩ := List.mem_map.mp ha
  simp [save_sequence]

end ProcessFileLemmas

/-- C9: for an input record with non-empty feature data and the
include-original flag set, the Fixed-Window Augmentation CLI writes exactly
one `orig`-suffixed file with index 0 followed by exactly `copies`
`aug`-suffixed files with indices `1..copies` (zero-padded to two digits in
the filename), for every non-empty chosen operation list. -/
theorem process_file_include_original (stem : String)
    (features : List (List ℚ)) (ops : List String) (copies : ℤ)
    (aug : ℕ → List (List ℚ))
    (hne : (features.map (fun r => r.length)).sum ≠ 0)
    (hops : ops ≠ []) (hc : 0 ≤ copies) :
    AugmentFixed.process_file stem features true ops copies aug
      = AugmentFixed.save_sequence stem "orig" 0 features
        :: ((List.range' 1 copies.toNat).map fun i =>
              AugmentFixed.save_sequence stem "aug" i (aug i))
    ∧ (AugmentFixed.process_file stem features true ops copies aug).filter
        (fun f => f.suffix == "orig")
        = [AugmentFixed.save_sequence stem "orig" 0 features]
    ∧ ((AugmentFixed.process_file stem features true ops copies aug).filter
        (fun f => f.suffix == "aug")).map (fun f => f.index)
        = List.range' 1 copies.toNat
    ∧ (((AugmentFixed.process_file stem features true ops copies aug).filter
        (fun f => f.suffix == "aug")).length : ℤ) = copies := by
  have heq : AugmentFixed.process_file stem features true ops copies aug
      = AugmentFixed.save_sequence stem "orig" 0 features
        :: ((List.range' 1 copies.toNat).map fun i =>
              AugmentFixed.save_sequence stem "aug" i (aug i)) := by
    unfold AugmentFixed.process_file
    rw [if_neg hne, if_pos rfl, if_neg hops]
    rfl
  refine ⟨heq, ?_, ?_, ?_⟩
  · rw [heq, List.filter_cons_of_pos (by simp [AugmentFixed.save_sequence]),
        aug_files_no_orig]
  · rw [heq, List.filter_cons_of_neg (by simp [AugmentFixed.save_sequence]),
        aug_files_all_aug, List.map_map]
    have : ((fun f => AugmentFixed.SavedFile.index f) ∘
        fun i => AugmentFixed.save_sequence stem "aug" i (aug i)) = id := by
      funext i
      rfl
    rw [this, List.map_id]
  · rw [heq, List.filter_cons_of_neg (by simp [AugmentFixed.save_sequence]),
        aug_files_all_aug, List.length_map, List.length_range']
    omega

/-- C9 witness: one input with a single 1-frame feature row, two copies and
operation list `["noise"]` yields the `orig` file plus `aug` files 01 and 02. -/
theorem process_file_include_original_witness :
    AugmentFixed.process_file "s" [[(1 : ℚ)]] true ["noise"] 2 (fun _ => [[(1 : ℚ)]])
      = AugmentFixed.save_sequence "s" "orig" 0 [[(1 : ℚ)]]
        :: ((List.range' 1 (2 : ℤ).toNat).map fun i =>
              AugmentFixed.save_sequence "s" "aug" i ((fun _ => [[(1 : ℚ)]]) i))
    ∧ (AugmentFixed.process_file "s" [[(1 : ℚ)]] true ["noise"] 2
        (fun _ => [[(1 : ℚ)]])).filter (fun f => f.suffix == "orig")
        = [AugmentFixed.save_sequence "s" "orig" 0 [[(1 : ℚ)]]]
    ∧ ((AugmentFixed.process_file "s" [[(1 : ℚ)]] true ["noise"] 2
        (fun _ => [[(1 : ℚ)]])).filter (fun f => f.suffix == "aug")).map
          (fun f => f.index)
        = List.range' 1 (2 : ℤ).toNat
    ∧ (((AugmentFixed.process_file "s" [[(1 : ℚ)]] true ["noise"] 2
        (fun _ => [[(1 : ℚ)]])).filter (fun f => f.suffix == "aug")).length : ℤ)
        = 2 :=
  process_file_include_original "s" [[(1 : ℚ)]] ["noise"] 2 (fun _ => [[(1 : ℚ)]])
    (by norm_num) (by simp) (by norm_num)

namespace CollectData

lemma splitComma_ne_nil (l : List Char) : splitComma l ≠ [] := by
  cases l with
  | nil => simp [splitComma]
  | cons c rest =>
    unfold splitComma
    split
    · simp
    · split <;> simp

lemma splitComma_head_cons (c : Char) (rest : List Char) (hc : ¬ c = ',') :
    ∃ t ts, splitComma (c :: rest) = (c :: t) :: ts := by
  unfold splitComma
  rw [if_neg hc]
  rcases h : splitComma rest with - | ⟨t, ts⟩
  · exact ⟨[], [], rfl⟩
  · exact ⟨t, ts, rfl⟩

lemma trimChars_head_hash (t : List Char) (h : t.head? = some '#') :
    (trimChars t).head? = some '#' := by
  obtain ⟨xs, rfl⟩ : ∃ xs, t = '#' :: xs := by
    cases t with
    | nil => simp at h
    | cons a as =>
      simp only [List.head?_cons, Option.some.injEq] at h
      exact ⟨as, by rw [h]⟩
  have hsp : pyIsSpace '#' = false := rfl
  unfold trimChars
  rw [List.dropWhile_cons, hsp]
  simp only [Bool.false_eq_true, if_false]
  rw [List.head?_reverse]
  have hne : ('#' :: xs).reverse.dropWhile pyIsSpace ≠ [] := by
    intro hnil
    rw [List.dropWhile_eq_nil_iff] at hnil
    have hmem : '#' ∈ ('#' :: xs).reverse := by
      rw [List.mem_reverse]
      exact List.mem_cons_self '#' xs
    have := hnil '#' hmem
    rw [hsp] at this
    cases this
  obtain ⟨pre, hpre⟩ := List.dropWhile_suffix (l := ('#' :: xs).reverse) pyIsSpace
  rcases hdl : (('#' :: xs).reverse.dropWhile pyIsSpace).getLast? with - | v
  · rw [List.getLast?_eq_none_iff] at hdl
    exact absurd hdl hne
  · have h1 : (pre ++ ('#' :: xs).reverse.dropWhile pyIsSpace).getLast? = some v := by
      rw [List.getLast?_append, hdl]
      rfl
    rw [hpre, List.getLast?_reverse] at h1
    simp only [List.head?_cons, Option.some.injEq] at h1
    rw [← h1]

lemma convertAll_none (pfloat : List Char → Option ℚ) (ts : List (List Char))
    (h : ∃ t ∈ ts, pfloat (trimChars t) = none) :
    convertAll pfloat ts = none := by
  induction ts with
  | nil => simp at h
  | cons a as ih =>
    obtain ⟨t, hmem, hnone⟩ := h
    rcases List.mem_cons.mp hmem with rfl | hmem'
    · unfold convertAll
      rw [hnone]
    · unfold convertAll
      rcases hfa : pfloat (trimChars a) with - | v
      · rfl
      · rw [ih ⟨t, hmem', hnone⟩]

lemma convertAll_some_head (pfloat : List Char → Option ℚ) (t : List Char)
    (ts : List (List Char)) (vs : List ℚ)
    (h : convertAll pfloat (t :: ts) = some vs) :
    pfloat (trimChars t) ≠ none := by
  intro hnone
  unfold convertAll at h
  rw [hnone] at h
  cases h

end CollectData

/-- C8: the serial parser discards (returns `None` for) every line that is
empty, starts with `#`, does not split into exactly 8 comma-separated
tokens, or contains a token rejected by float conversion; and for every line
whose 8 tokens all convert, it returns exactly those 8 parsed floats.
`pfloat` abstracts Python `float`, assumed only to reject tokens that still
start with `#` after stripping. -/
theorem parse_stream_line_spec (pfloat : List Char → Option ℚ)
    (line : List Char)
    (hp : ∀ t : List Char, t.head? = some '#' → pfloat t = none) :
    ((line = [] ∨ line.head? = some '#') →
      CollectData.parse_stream_line pfloat line = none)
    ∧ ((CollectData.splitComma line).length ≠ 8 →
      CollectData.parse_stream_line pfloat line = none)
    ∧ ((∃ t ∈ CollectData.splitComma line,
          pfloat (CollectData.trimChars t) = none) →
      CollectData.parse_stream_line pfloat line = none)
    ∧ (∀ vals : List ℚ,
        CollectData.convertAll pfloat (CollectData.splitComma line) = some vals →
        (CollectData.splitComma line).length = 8 →
        CollectData.parse_stream_line pfloat line = some vals) := by
  refine ⟨?_, ?_, ?_, ?_⟩
  · intro h
    unfold CollectData.parse_stream_line
    rw [if_pos h]
  · intro h
    unfold CollectData.parse_stream_line
    split
    · rfl
    · rw [if_pos h]
  · intro h
    unfold CollectData.parse_stream_line
    split
    · rfl
    · show (if (CollectData.splitComma line).length ≠ 8 then none
          else CollectData.convertAll pfloat (CollectData.splitComma line)) = none
      split
      · rfl
      · exact CollectData.convertAll_none pfloat _ h
  · intro vals hconv hlen
    have hline : ¬(line = [] ∨ line.head? = some '#') := by
      rintro (rfl | hhash)
      · rw [show CollectData.splitComma [] = [[]] from rfl] at hlen
        simp at hlen
      · obtain ⟨xs, rfl⟩ : ∃ xs, line = '#' :: xs := by
          cases line with
          | nil => simp at hhash
          | cons a as =>
            simp only [List.head?_cons, Option.some.injEq] at hhash
            exact ⟨as, by rw [hhash]⟩
        obtain ⟨t, ts, hsplit⟩ :=
          CollectData.splitComma_head_cons '#' xs (by decide)
        rw [hsplit] at hconv
        have hfail : pfloat (CollectData.trimChars ('#' :: t)) = none :=
          hp _ (CollectData.trimChars_head_hash ('#' :: t) rfl)
        exact CollectData.convertAll_some_head pfloat _ _ _ hconv hfail
    unfold CollectData.parse_stream_line
    rw [if_neg hline, if_neg (by omega)]
    exact hconv

/-- C8 witness: with a concrete float model that accepts any non-`#` token as
0, a comment line, a 2-token line, a line with a failing token, and a clean
8-token line are parsed exactly as the claim states. -/
theorem parse_stream_line_spec_witness :
    CollectData.parse_stream_line
        (fun t => if t.head? = some '#' then none else some 0)
        ("#c".toList) = none
    ∧ CollectData.parse_stream_line
        (fun t => if t.head? = some '#' then none else some 0)
        ("a,b".toList) = none
    ∧ CollectData.parse_stream_line
        (fun t => if t.head? = some '#' then none else some 0)
        ("1,2,3,4,5,6,7,#8".toList) = none
    ∧ CollectData.parse_stream_line
        (fun t => if t.head? = some '#' then none else some 0)
        ("1,2,3,4,5,6,7,8".toList) = some [0, 0, 0, 0, 0, 0, 0, 0] := by
  have hp : ∀ t : List Char, t.head? = some '#' →
      (fun t => if t.head? = some '#' then none else some (0 : ℚ)) t = none := by
    intro t h
    simp only [h]
    rfl
  refine ⟨?_, ?_, ?_, ?_⟩
  · exact (parse_stream_line_spec _ ("#c".toList) hp).1 (Or.inr rfl)
  · exact (parse_stream_line_spec _ ("a,b".toList) hp).2.1 (by decide)
  · exact (parse_stream_line_spec _ ("1,2,3,4,5,6,7,#8".toList) hp).2.2.1
      ⟨"#8".toList, by decide, by decide⟩
  · exact (parse_stream_line_spec _ ("1,2,3,4,5,6,7,8".toList) hp).2.2.2
      [0, 0, 0, 0, 0, 0, 0, 0] (by decide) (by decide)

section SeqInferLemmas

open SeqInfer

lemma mainResult_idle {W : Type} (features : List (List ℚ)) (cfg : SeqConfig)
    (args : InferArgs) (wt : W) (net : W → List (List ℚ) → List ℚ)
    (hne : features ≠ [])
    (hrect : (features.all fun r => r.length = (features.headD []).length) = true)
    (hwidth : (features.headD []).length = cfg.feature_names.length)
    (hwin : ¬(¬ (args.low_pass_window ≤ 1 ∨ features.length < 2)
      ∧ (features.length : ℤ) < args.low_pass_window))
    (hauto : args.auto_idle = true)
    (hidle : detect_idle
      (compute_idle_stats (low_pass_filter features args.low_pass_window))
      args = true) :
    mainResult features cfg args wt net
      = Except.ok (idle_result cfg.labels args.idle_label) := by
  unfold mainResult
  rw [if_neg hne, if_neg (not_not_intro hrect), if_neg (not_not_intro hwidth),
      if_neg hwin, if_pos (by rw [hauto, hidle]; rfl)]

lemma mainResult_ok_net {W : Type} (features : List (List ℚ)) (cfg : SeqConfig)
    (args : InferArgs) (wt : W) (net : W → List (List ℚ) → List ℚ)
    (r : InferResult)
    (hok : mainResult features cfg args wt net = Except.ok r)
    (hnotidle : r.detected_idle = false) :
    r = net_result cfg.labels
      (net wt (zscore (low_pass_filter features args.low_pass_window)
        cfg.feature_mean cfg.feature_std)) := by
  unfold mainResult at hok
  split at hok
  · cases hok
  · split at hok
    · cases hok
    · split at hok
      · cases hok
      · split at hok
        · cases hok
        · split at hok
          · have hr : r = idle_result cfg.labels args.idle_label :=
              (Except.ok.injEq _ _ |>.mp hok).symm
            rw [hr] at hnotidle
            cases hnotidle
          · exact ((Except.ok.injEq _ _ |>.mp hok)).symm

end SeqInferLemmas

/-- C1: if auto-idle is enabled and all four idle statistics of the
(low-pass-filtered) sequence are within their thresholds, the CLI reports
the idle label with probability 1.0, a probabilities mapping giving 1.0 to
config labels equal to the idle label and 0.0 to every other label, and
`detected_idle = true` — and the result is identical for every choice of
weights and network, i.e. the network is never consulted. -/
theorem idle_short_circuit {W₁ W₂ : Type} (features : List (List ℚ))
    (cfg : SeqInfer.SeqConfig) (args : SeqInfer.InferArgs)
    (w₁ : W₁) (net₁ : W₁ → List (List ℚ) → List ℚ)
    (w₂ : W₂) (net₂ : W₂ → List (List ℚ) → List ℚ)
    (hne : features ≠ [])
    (hrect : (features.all fun r => r.length = (features.headD []).length) = true)
    (hwidth : (features.headD []).length = cfg.feature_names.length)
    (h7 : 7 ≤ (features.headD []).length)
    (hwin : ¬(¬ (args.low_pass_window ≤ 1 ∨ features.length < 2)
      ∧ (features.length : ℤ) < args.low_pass_window))
    (hauto : args.auto_idle = true)
    (hidle : SeqInfer.detect_idle
      (SeqInfer.compute_idle_stats
        (SeqInfer.low_pass_filter features args.low_pass_window))
      args = true) :
    SeqInfer.mainResult features cfg args w₁ net₁
      = Except.ok
          { label := args.idle_label
            probability := 1
            probabilities := cfg.labels.map fun l =>
              (l, if l = args.idle_label then (1 : ℝ) else 0)
            detected_idle := true }
    ∧ SeqInfer.mainResult features cfg args w₁ net₁
        = SeqInfer.mainResult features cfg args w₂ net₂ := by
  have h1 := mainResult_idle features cfg args w₁ net₁ hne hrect hwidth hwin
    hauto hidle
  have h2 := mainResult_idle features cfg args w₂ net₂ hne hrect hwidth hwin
    hauto hidle
  exact ⟨h1, h1.trans h2.symm⟩

/-- C10: in the idle-detected path, probability 1.0 is assigned only to
config labels string-equal to the idle label; if the config's labels list
does not contain the idle label, every probabilities entry is 0.0 and the
mapping sums to 0, while the top-level probability is still 1.0. -/
theorem idle_probabilities_without_idle_label {W : Type}
    (features : List (List ℚ)) (cfg : SeqInfer.SeqConfig)
    (args : SeqInfer.InferArgs) (wt : W)
    (net : W → List (List ℚ) → List ℚ)
    (hne : features ≠ [])
    (hrect : (features.all fun r => r.length = (features.headD []).length) = true)
    (hwidth : (features.headD []).length = cfg.feature_names.length)
    (hwin : ¬(¬ (args.low_pass_window ≤ 1 ∨ features.length < 2)
      ∧ (features.length : ℤ) < args.low_pass_window))
    (hauto : args.auto_idle = true)
    (hidle : SeqInfer.detect_idle
      (SeqInfer.compute_idle_stats
        (SeqInfer.low_pass_filter features args.low_pass_window))
      args = true)
    (hnot : args.idle_label ∉ cfg.labels) :
    SeqInfer.mainResult features cfg args wt net
      = Except.ok (SeqInfer.idle_result cfg.labels args.idle_label)
    ∧ (∀ p ∈ (SeqInfer.idle_result cfg.labels args.idle_label).probabilities,
        p.2 = 0)
    ∧ ((SeqInfer.idle_result cfg.labels args.idle_label).probabilities.map
        Prod.snd).sum = 0
    ∧ (SeqInfer.idle_result cfg.labels args.idle_label).probability = 1 := by
  have hzero : ∀ p ∈ (SeqInfer.idle_result cfg.labels args.idle_label).probabilities,
      p.2 = 0 := by
    intro p hp
    obtain ⟨l, hl, rfl⟩ := List.mem_map.mp hp
    have hlne : ¬ l = args.idle_label := fun h => hnot (h ▸ hl)
    simp only [hlne, if_false]
  refine ⟨mainResult_idle features cfg args wt net hne hrect hwidth hwin
      hauto hidle,
    hzero, ?_, rfl⟩
  apply List.sum_eq_zero
  intro x hx
  obtain ⟨p, hp, rfl⟩ := List.mem_map.mp hx
  exact hzero p hp

section SoftmaxLemmas

open SeqInfer

lemma sum_map_exp_nonneg (l : List ℝ) : 0 ≤ (l.map Real.exp).sum := by
  apply List.sum_nonneg
  intro x hx
  obtain ⟨y, hy, rfl⟩ := List.mem_map.mp hx
  exact le_of_lt (Real.exp_pos y)

lemma sum_map_exp_pos (l : List ℝ) (h : l ≠ []) : 0 < (l.map Real.exp).sum := by
  cases l with
  | nil => exact absurd rfl h
  | cons a as =>
    rw [List.map_cons, List.sum_cons]
    exact add_pos_of_pos_of_nonneg (Real.exp_pos a) (sum_map_exp_nonneg as)

lemma softmax_length (l : List ℝ) : (softmax l).length = l.length := by
  simp [softmax]

lemma softmax_sum (l : List ℝ) (h : l ≠ []) : (softmax l).sum = 1 := by
  unfold softmax
  have hS := sum_map_exp_pos l h
  simp only [div_eq_mul_inv]
  rw [List.sum_map_mul_right]
  exact mul_inv_cancel₀ (ne_of_gt hS)

lemma argmax_foldl_spec (l : List ℝ) :
    ∀ n, (((List.range n).foldl
        (fun b i => if l.getD b 0 < l.getD i 0 then i else b) 0) = 0
        ∨ ((List.range n).foldl
        (fun b i => if l.getD b 0 < l.getD i 0 then i else b) 0) < n)
      ∧ ∀ i, i < n → l.getD i 0
        ≤ l.getD ((List.range n).foldl
            (fun b i => if l.getD b 0 < l.getD i 0 then i else b) 0) 0 := by
  intro n
  induction n with
  | zero => exact ⟨Or.inl rfl, fun i h => absurd h (by omega)⟩
  | succ n ih =>
    obtain ⟨ihb, ihle⟩ := ih
    rw [List.range_succ, List.foldl_append, List.foldl_cons, List.foldl_nil]
    set b := (List.range n).foldl
      (fun b i => if l.getD b 0 < l.getD i 0 then i else b) 0 with hb
    constructor
    · by_cases hlt : l.getD b 0 < l.getD n 0
      · rw [if_pos hlt]
        exact Or.inr (by omega)
      · rw [if_neg hlt]
        rcases ihb with h | h
        · exact Or.inl h
        · exact Or.inr (by omega)
    · intro i hi
      by_cases hlt : l.getD b 0 < l.getD n 0
      · rw [if_pos hlt]
        rcases Nat.lt_or_ge i n with hin | hin
        · exact le_trans (ihle i hin) (le_of_lt hlt)
        · have : i = n := by omega
          subst this
          exact le_refl _
      · rw [if_neg hlt]
        rcases Nat.lt_or_ge i n with hin | hin
        · exact ihle i hin
        · have : i = n := by omega
          subst this
          exact le_of_not_lt hlt
    
lemma argmax_lt_length (l : List ℝ) (h : l ≠ []) : argmax l < l.length := by
  have hpos : 0 < l.length := List.length_pos.mpr h
  rcases (argmax_foldl_spec l l.length).1 with h0 | hlt
  · rw [argmax, h0]
    exact hpos
  · exact hlt

lemma getD_le_argmax (l : List ℝ) (i : ℕ) (h : i < l.length) :
    l.getD i 0 ≤ l.getD (argmax l) 0 :=
  (argmax_foldl_spec l l.length).2 i h

end SoftmaxLemmas

/-- C6: for every run that reaches the network path (result not idle), with a
non-empty labels list and a network producing one logit per label, the
probabilities mapping sums to 1 (softmax normalization), every probability
is at most the reported top-level probability, and the entry at the argmax
index of the probability row is exactly the reported (label, probability)
pair. -/
theorem softmax_output_normalized {W : Type} (features : List (List ℚ))
    (cfg : SeqInfer.SeqConfig) (args : SeqInfer.InferArgs) (wt : W)
    (net : W → List (List ℚ) → List ℚ) (r : SeqInfer.InferResult)
    (hlen : ∀ x, (net wt x).length = cfg.labels.length)
    (hlab : cfg.labels ≠ [])
    (hok : SeqInfer.mainResult features cfg args wt net = Except.ok r)
    (hnotidle : r.detected_idle = false) :
    (r.probabilities.map Prod.snd).sum = 1
    ∧ (∀ p ∈ r.probabilities, p.2 ≤ r.probability)
    ∧ r.probabilities.getD
        (SeqInfer.argmax (r.probabilities.map Prod.snd)) ("", 0)
        = (r.label, r.probability) := by
  obtain rfl := mainResult_ok_net features cfg args wt net r hok hnotidle
  set L := net wt (SeqInfer.zscore
    (SeqInfer.low_pass_filter features args.low_pass_window)
    cfg.feature_mean cfg.feature_std) with hLdef
  have hL : L.length = cfg.labels.length := hlen _
  set probs := SeqInfer.softmax (L.map fun q : ℚ => (q : ℝ)) with hprobs
  have hplen : probs.length = cfg.labels.length := by
    rw [hprobs, softmax_length, List.length_map, hL]
  have hLne : (L.map fun q : ℚ => (q : ℝ)) ≠ [] := by
    intro hnil
    have : L = [] := List.map_eq_nil_iff.mp hnil
    rw [this] at hL
    exact hlab (List.length_eq_zero.mp hL.symm)
  have hpne : probs ≠ [] := by
    intro hnil
    rw [hnil] at hplen
    exact hlab (List.length_eq_zero.mp hplen.symm)
  have hsnd : (cfg.labels.zip probs).map Prod.snd = probs :=
    List.map_snd_zip cfg.labels probs (by omega)
  have hbest : SeqInfer.argmax probs < probs.length :=
    argmax_lt_length probs hpne
  refine ⟨?_, ?_, ?_⟩
  · show ((cfg.labels.zip probs).map Prod.snd).sum = 1
    rw [hsnd, hprobs]
    exact softmax_sum _ hLne
  · intro p hp
    have hp2 : p.2 ∈ probs := (List.of_mem_zip hp).2
    obtain ⟨i, hi, hieq⟩ := List.mem_iff_getElem.mp hp2
    show p.2 ≤ probs.getD (SeqInfer.argmax probs) 0
    rw [← hieq, ← List.getD_eq_getElem probs 0 hi]
    exact getD_le_argmax probs i hi
  · show (cfg.labels.zip probs).getD
        (SeqInfer.argmax ((cfg.labels.zip probs).map Prod.snd)) ("", 0)
        = (cfg.labels.getD (SeqInfer.argmax probs) "",
            probs.getD (SeqInfer.argmax probs) 0)
    rw [hsnd]
    have hzl : (cfg.labels.zip probs).length = cfg.labels.length := by
      rw [List.length_zip, hplen]
      omega
    have hblt : SeqInfer.argmax probs < (cfg.labels.zip probs).length := by
      omega
    rw [List.getD_eq_getElem _ _ hblt, List.getElem_zip,
        List.getD_eq_getElem cfg.labels "" (by omega),
        List.getD_eq_getElem probs 0 (by omega)]

section InferWitnessLemmas

open SeqInfer

lemma low_pass_one_idleSeqW : low_pass_filter idleSeqW 1 = idleSeqW := by
  unfold low_pass_filter
  rw [if_pos (Or.inl (by norm_num))]

lemma idle_stats_idleSeqW :
    compute_idle_stats idleSeqW
      = { pressure_var := 0, pressure_mean_abs := 10,
          accel_var_max := 0, gyro_var_max := 0 } := by
  unfold compute_idle_stats AugmentFixed.column listVar listMean idleSeqW
  simp [List.getD]

lemma detect_idle_idleSeqW :
    detect_idle (compute_idle_stats (low_pass_filter idleSeqW
      idleArgsW.low_pass_window)) idleArgsW = true := by
  have hw : idleArgsW.low_pass_window = 1 := rfl
  rw [hw, low_pass_one_idleSeqW, idle_stats_idleSeqW]
  unfold detect_idle sqrtVarLe idleArgsW
  simp only [Bool.and_eq_true, decide_eq_true_eq]
  norm_num

end InferWitnessLemmas

/-- C1 witness: the near-constant sequence with default thresholds and
auto-idle on yields the idle verdict with probability 1, the indicator
probability mapping over `["idle", "tap"]`, `detected_idle = true`, and the
same result under two different weight/network instantiations. -/
theorem idle_short_circuit_witness :
    SeqInfer.mainResult SeqInfer.idleSeqW SeqInfer.idleCfgW SeqInfer.idleArgsW
        () (fun _ _ => [])
      = Except.ok
          { label := SeqInfer.idleArgsW.idle_label
            probability := 1
            probabilities := SeqInfer.idleCfgW.labels.map fun l =>
              (l, if l = SeqInfer.idleArgsW.idle_label then (1 : ℝ) else 0)
            detected_idle := true }
    ∧ SeqInfer.mainResult SeqInfer.idleSeqW SeqInfer.idleCfgW SeqInfer.idleArgsW
        () (fun _ _ => [])
      = SeqInfer.mainResult SeqInfer.idleSeqW SeqInfer.idleCfgW SeqInfer.idleArgsW
        true (fun _ _ => [1]) :=
  idle_short_circuit SeqInfer.idleSeqW SeqInfer.idleCfgW SeqInfer.idleArgsW
    () (fun _ _ => []) true (fun _ _ => [1])
    (by simp [SeqInfer.idleSeqW]) (by decide) rfl (by decide) (by decide) rfl
    detect_idle_idleSeqW

/-- C10 witness: the same idle run against a config whose labels are
`["tap", "hug"]` (no `"idle"`): all probability entries are 0, their sum is
0, and the top-level probability is still 1. -/
theorem idle_probabilities_without_idle_label_witness :
    SeqInfer.mainResult SeqInfer.idleSeqW SeqInfer.noIdleCfgW SeqInfer.idleArgsW
        () (fun _ _ => [])
      = Except.ok (SeqInfer.idle_result SeqInfer.noIdleCfgW.labels
          SeqInfer.idleArgsW.idle_label)
    ∧ (∀ p ∈ (SeqInfer.idle_result SeqInfer.noIdleCfgW.labels
          SeqInfer.idleArgsW.idle_label).probabilities, p.2 = 0)
    ∧ ((SeqInfer.idle_result SeqInfer.noIdleCfgW.labels
          SeqInfer.idleArgsW.idle_label).probabilities.map Prod.snd).sum = 0
    ∧ (SeqInfer.idle_result SeqInfer.noIdleCfgW.labels
          SeqInfer.idleArgsW.idle_label).probability = 1 :=
  idle_probabilities_without_idle_label SeqInfer.idleSeqW SeqInfer.noIdleCfgW
    SeqInfer.idleArgsW () (fun _ _ => [])
    (by simp [SeqInfer.idleSeqW]) (by decide) rfl (by decide) rfl
    detect_idle_idleSeqW (by decide)

/-- C6 witness: a single-frame non-idle run with labels `["a", "b"]` and a
network returning logits `[0, 0]`: the probabilities sum to 1, none exceeds
the reported probability, and the argmax entry is the reported pair. -/
theorem softmax_output_normalized_witness :
    (((SeqInfer.net_result SeqInfer.netCfgW.labels [0, 0]).probabilities.map
        Prod.snd).sum = 1)
    ∧ (∀ p ∈ (SeqInfer.net_result SeqInfer.netCfgW.labels [0, 0]).probabilities,
        p.2 ≤ (SeqInfer.net_result SeqInfer.netCfgW.labels [0, 0]).probability)
    ∧ (SeqInfer.net_result SeqInfer.netCfgW.labels [0, 0]).probabilities.getD
        (SeqInfer.argmax ((SeqInfer.net_result SeqInfer.netCfgW.labels
          [0, 0]).probabilities.map Prod.snd)) ("", 0)
        = ((SeqInfer.net_result SeqInfer.netCfgW.labels [0, 0]).label,
            (SeqInfer.net_result SeqInfer.netCfgW.labels [0, 0]).probability) :=
  softmax_output_normalized SeqInfer.idleSeqW SeqInfer.netCfgW SeqInfer.netArgsW
    () (fun _ _ => [0, 0]) (SeqInfer.net_result SeqInfer.netCfgW.labels [0, 0])
    (fun _ => rfl) (by simp [SeqInfer.netCfgW]) rfl rfl
